import Mathlib

/-!
Verification of the ThinkBaby claim-scoring code.

Strings are shallowly embedded as `List Char` (the character sequence of a
JavaScript string).  JavaScript string primitives used by the sources
(`trim`, `toLowerCase`, `includes`, `split`, `match`, `join`) are embedded
as executable Lean functions below.  Numbers that the sources keep integral
are embedded as `Nat`; genuinely fractional quantities use `ℚ`.
-/

namespace ThinkBaby

/-- The whitespace test used to model JavaScript `trim` / `\s`. -/
def wsB (c : Char) : Bool := c = ' ' || c = '\t' || c = '\n' || c = '\r'

/-- ASCII decimal digit test, modelling the regex class `\d` / `[0-9]`. -/
def digitB (c : Char) : Bool := '0' ≤ c && c ≤ '9'

/-- Model of JavaScript `toLowerCase` on the ASCII fragment the sources
inspect (the regexes and keywords involved are ASCII; lowering never maps
any character into `A`–`Z`). -/
def jsToLower (c : Char) : Char :=
  if 'A' ≤ c && c ≤ 'Z' then Char.ofNat (c.toNat + 32) else c

/-- Model of JavaScript `String.prototype.trim`. -/
def jsTrim (s : List Char) : List Char :=
  ((s.dropWhile wsB).reverse.dropWhile wsB).reverse

/-- Model of JavaScript `String.prototype.includes` (contiguous substring). -/
def includesSub (pat : List Char) : List Char → Bool
  | [] => pat.isEmpty
  | c :: cs => pat.isPrefixOf (c :: cs) || includesSub pat cs

/-- Model of JavaScript `Array.prototype.join(sep)` for lists of strings. -/
def joinSep (sep : List Char) : List (List Char) → List Char
  | [] => []
  | [s] => s
  | s :: rest => s ++ sep ++ joinSep sep rest

/-- Splitting on maximal runs of characters satisfying `isSep`, with the
semantics of JavaScript `split(/[…]+/)`: a leading run yields a leading
empty part, a trailing run a trailing empty part, and the empty string
splits to `[""]`. -/
def splitRuns (isSep : Char → Bool) : List Char → List (List Char)
  | [] => [[]]
  | c :: cs =>
    let r := splitRuns isSep cs
    if isSep c then
      match cs with
      | d :: _ => if isSep d then r else [] :: r
      | [] => [] :: r
    else
      match r with
      | t :: ts => (c :: t) :: ts
      | [] => [[c]]

/-- Model of JavaScript `String.prototype.split(sep)` for a single
separator character (each occurrence separates; adjacent occurrences give
empty parts). -/
def splitChar (sep : Char) : List Char → List (List Char)
  | [] => [[]]
  | c :: cs =>
    if c = sep then [] :: splitChar sep cs
    else
      match splitChar sep cs with
      | t :: ts => (c :: t) :: ts
      | [] => [[c]]

/-! ## `src/modules/claimExtractor.js` -/

/-- The sentence delimiters of the regex `[.!?]+` in `extractClaims`. -/
def sentenceDelimB (c : Char) : Bool := c = '.' || c = '!' || c = '?'

/-- `extractClaims` (claimExtractor.js lines 64–74): split into sentences
on `[.!?]+`, trim each, keep fragments longer than 10 characters, take the
first 3. -/
def extractClaims (text : List Char) : List (List Char) :=
  (((splitRuns sentenceDelimB text).map jsTrim).filter
    (fun s => decide (s.length > 10))).take 3

def urgentKeywords : List (List Char) :=
  ["immediately".data, "urgent".data, "breaking".data, "alert".data, "warning".data]

def financialKeywords : List (List Char) :=
  ["money".data, "cash".data, "prize".data, "won".data, "lottery".data,
   "reward".data, "₹".data, "$".data]

def governmentKeywords : List (List Char) :=
  ["government".data, "minister".data, "official".data, "scheme".data, "policy".data]

def unverifiedPhrases : List (List Char) :=
  ["forward this".data, "share immediately".data, "before it's deleted".data,
   "they don't want you to know".data]

/-- Number of uppercase ASCII letters, modelling
`(text.match(/[A-Z]/g) || []).length`. -/
def capsCount (s : List Char) : Nat :=
  (s.filter (fun c => 'A' ≤ c && c ≤ 'Z')).length

/-- Exclamation/question characters of the regex `[!?]{2,}`. -/
def bangB (c : Char) : Bool := c = '!' || c = '?'

/-- Number of (maximal, non-overlapping) matches of `/[!?]{2,}/g`: the
accumulator carries the length of the current run of `!`/`?`. -/
def bangRuns : List Char → Nat → Nat
  | [], run => if run ≥ 2 then 1 else 0
  | c :: cs, run =>
    if bangB c then bangRuns cs (run + 1)
    else (if run ≥ 2 then 1 else 0) + bangRuns cs 0

/-- `calculateRiskScore` (claimExtractor.js lines 79–122).  `claims` is a
parameter of the source function but is not read by it.  The caps-ratio
comparison `count / text.length > 0.5` is embedded as the integer
comparison `2 * count > length`: the two are equivalent for non-empty
text, and for the empty string JavaScript compares `NaN > 0.5` (false)
while `2 * 0 > 0` is also false. -/
def calculateRiskScore (text : List Char) (_claims : List (List Char)) : Nat :=
  let b0 : Nat := 50
  let b1 := b0 + (if urgentKeywords.any (fun k => includesSub k text) then 15 else 0)
  let b2 := b1 + (if financialKeywords.any (fun k => includesSub k text) then 20 else 0)
  let b3 := b2 + (if governmentKeywords.any (fun k => includesSub k text) then 10 else 0)
  let b4 := b3 + (if unverifiedPhrases.any (fun k => includesSub k text) then 25 else 0)
  let b5 := b4 + (if 2 * capsCount text > text.length then 10 else 0)
  let b6 := b5 + (if bangRuns text 0 > 2 then 10 else 0)
  min (max b6 0) 100

/-- `generateExplanation` (claimExtractor.js lines 127–158). -/
def generateExplanation (text : List Char) (riskScore : Nat)
    (_claims : List (List Char)) : List Char :=
  let e0 : List (List Char) :=
    [if riskScore ≥ 80 then "High-risk content detected.".data
     else if riskScore ≥ 60 then "Moderate risk detected.".data
     else if riskScore ≥ 40 then "Some suspicious elements found.".data
     else "Content appears relatively neutral.".data]
  let e1 := e0 ++
    (if includesSub "government".data text || includesSub "minister".data text then
      ["Contains government-related claims requiring verification.".data] else [])
  let e2 := e1 ++
    (if includesSub "₹".data text || includesSub "money".data text
        || includesSub "prize".data text then
      ["Contains financial claims. Verify through official sources.".data] else [])
  let e3 := e2 ++
    (if includesSub "forward".data text || includesSub "share".data text then
      ["Shows viral sharing patterns common in misinformation.".data] else [])
  let e4 := if e3.length = 1 then
      e3 ++ ["Recommend verification through official sources and fact-checking websites.".data]
    else e3
  joinSep " ".data e4

/-- The part of the result of `performAnalysis` that feeds `analyzeMessage`. -/
structure Analysis where
  claims : List (List Char)
  riskScore : Nat
  explanation : List Char
deriving Repr, DecidableEq

/-- `performAnalysis` (claimExtractor.js lines 40–58): note that the
*normalized* (trimmed, lowercased) text is what `calculateRiskScore` and
`generateExplanation` receive, while `extractClaims` receives the raw text. -/
def performAnalysis (text : List Char) : Analysis :=
  let normalizedText := (jsTrim text).map jsToLower
  let claims := extractClaims text
  let riskScore := calculateRiskScore normalizedText claims
  let explanation := generateExplanation normalizedText riskScore claims
  ⟨claims, riskScore, explanation⟩

/-- The object resolved by `analyzeMessage`, timestamp included. -/
structure AnalysisResult where
  claims : List (List Char)
  riskScore : Nat
  explanation : List Char
  timestamp : List Char
deriving Repr, DecidableEq

/-- `analyzeMessage` (claimExtractor.js lines 13–34).  The rejection test
`!messageText || messageText.trim().length === 0` holds for a string
exactly when its trim is empty.  `new Date().toISOString()` is passed in as
the `now` parameter.  A thrown error is modelled as `Except.error` carrying
the wrapped message built in the catch block. -/
def analyzeMessage (messageText : List Char) (now : List Char) :
    Except (List Char) AnalysisResult :=
  if (jsTrim messageText).length = 0 then
    Except.error ("Claim extraction failed: Message text cannot be empty".data)
  else
    let analysis := performAnalysis messageText
    Except.ok ⟨analysis.claims, analysis.riskScore, analysis.explanation, now⟩

/-! ## `src/utils/formatter.js` -/

/-- The final-status computation of `formatWhatsAppReport` (formatter.js
lines 27–34): a claim still `Under Review` with at least one vote is
reported `Likely True` when strictly more true votes than false votes were
cast, and `Likely False` otherwise. -/
def whatsAppFinalStatus (status : List Char) (trueVotes falseVotes : Nat) :
    List Char :=
  if status = "Under Review".data then
    let totalVotes := trueVotes + falseVotes
    if totalVotes > 0 then
      if trueVotes > falseVotes then "Likely True".data else "Likely False".data
    else status
  else status

/-- The risk emoji of `formatWhatsAppReport` (formatter.js lines 20–25). -/
def whatsAppEmoji (riskScore : Nat) : List Char :=
  if riskScore ≥ 80 then "🚨".data
  else if riskScore ≥ 60 then "⚠️".data
  else if riskScore ≥ 40 then "🔎".data
  else "✅".data

/-! ## `src/frontend/src/utils/hash.ts` -/

/-- `normalizeText` (hash.ts lines 12–18):
`text.toLowerCase().trim().split(/\s+/).join(' ')`. -/
def normalizeText (text : List Char) : List Char :=
  joinSep " ".data (splitRuns wsB (jsTrim (text.map jsToLower)))

/-- `hashClaim` (hash.ts lines 25–28): the keccak256 digest of the UTF-8
bytes of the normalized text.  The digest itself is a stock primitive
(spec §1 non-goal), abstracted here as the parameter `keccak`. -/
def hashClaim (keccak : List Char → List Char) (text : List Char) : List Char :=
  keccak (normalizeText text)

/-- The spec's normal form, written from its words (§3 `claimHash`):
lowercase, trim, and collapse every internal whitespace run to a single
space.  Stated independently of `normalizeText` for the refinement claim. -/
def specNormalForm (text : List Char) : List Char :=
  collapseWs (jsTrim (text.map jsToLower))
where
  /-- Replace each maximal whitespace run by a single `' '`. -/
  collapseWs : List Char → List Char
  | [] => []
  | c :: cs =>
    if wsB c then
      match cs with
      | d :: _ => if wsB d then collapseWs cs else ' ' :: collapseWs cs
      | [] => [' ']
    else c :: collapseWs cs

/-- The whitespace-delimited words of a string (split on whitespace runs,
empty parts dropped). -/
def wordsOf (l : List Char) : List (List Char) :=
  (splitRuns wsB l).filter (fun w => !w.isEmpty)

/-- The whitespace-delimited lowercase words of a string: the content that
remains when letter case and whitespace layout are forgotten.  Two strings
"differ only in letter case or whitespace layout" exactly when their
`lowerWords` agree. -/
def lowerWords (text : List Char) : List (List Char) :=
  wordsOf (text.map jsToLower)

/-- Whether a string ends in a whitespace character (proof helper). -/
def endsWs (l : List Char) : Bool :=
  match l.getLast? with
  | some d => wsB d
  | none => false

end ThinkBaby

namespace CredEngine

/-!
## The credibility engine (`credibility_engine.py`)

The engine itself is not among the repository's source files — only its
FastAPI/React callers and its documentation are (e.g. the threshold table
in the integration guide, and §4 of the design documentation).  The
definitions in this namespace are therefore modelled from the spec, as
marked on each.
-/

/-- The closed verdict enum (spec §3). -/
inductive Verdict
  | TRUE | FALSE | UNCERTAIN | UNVERIFIED | BREAKING
deriving Repr, DecidableEq

/-- The closed risk-level enum (spec §3). -/
inductive RiskLevel
  | low | medium | high | critical
deriving Repr, DecidableEq

/-- Modelled from the spec: the classifier decision table of §4.3
(`credibility_engine.py` is missing from the sources; the documented
thresholds are `≥ 0.72 → TRUE`, `< 0.40 → FALSE`, otherwise `UNCERTAIN`).
Rule 1 fires on an unverified-breaking flag unless the final score is
already decisively low (below the floor, which §4.3 leaves as "some
floor", kept here as a parameter); rule 2 on no source and no database
match; rule 3 is the threshold table. -/
def classify (breakingFloor : ℚ) (breakingUnverified : Bool)
    (sourceFound : Bool) (noDatabaseMatch : Bool) (finalScore : ℚ) :
    Verdict × RiskLevel :=
  if breakingUnverified = true ∧ ¬ finalScore < breakingFloor then
    (.BREAKING, .medium)
  else if sourceFound = false ∧ noDatabaseMatch = true then
    (.UNVERIFIED, .high)
  else if finalScore ≥ 72/100 then (.TRUE, .low)
  else if finalScore < 40/100 then (.FALSE, .critical)
  else (.UNCERTAIN, if finalScore ≥ 55/100 then .medium else .high)

/-- A vote tally (spec §3 `votes`). -/
structure Votes where
  userTrue : Nat
  userFalse : Nat
  validatorTrue : Nat
  validatorFalse : Nat
deriving Repr, DecidableEq

/-- Modelled from the spec: the community layer of §4.1
(`credibility_engine.py` is missing from the sources).  Below 5 total
votes the layer is neutral at 0.5 with an insufficiency flag; at or above
the threshold, validator votes weigh 3x and the score is
`weightedTrue / (weightedTrue + weightedFalse)`, flagged as consensus when
it crosses 0.65 / 0.35. -/
def communityLayer (v : Votes) : ℚ × List (List Char) :=
  let total := v.userTrue + v.userFalse + v.validatorTrue + v.validatorFalse
  if total < 5 then (1/2, ["insufficient_community_votes".data])
  else
    let weightedTrue : ℚ := v.userTrue + 3 * v.validatorTrue
    let weightedFalse : ℚ := v.userFalse + 3 * v.validatorFalse
    let score := weightedTrue / (weightedTrue + weightedFalse)
    (score,
      (if score ≥ 65/100 then ["community_consensus_true".data] else []) ++
      (if score ≤ 35/100 then ["community_consensus_false".data] else []))

/-- Decimal digit string of a natural number (the rendering of the
percentage fields interpolated into the explanation). -/
def natRepr (n : Nat) : List Char :=
  if n < 10 then [Char.ofNat (48 + n)]
  else natRepr (n / 10) ++ [Char.ofNat (48 + n % 10)]
decreasing_by exact Nat.div_lt_self (Nat.pos_of_ne_zero (by omega)) (by omega)

/-- Modelled from the spec: the Explainer's fixed-format assembly (§4.4;
the engine source is missing).  Field order per §4.4 — verdict line first,
then the credibility and confidence percentages, then the strongest
factor, then the remaining signals — with the `|` separators and field
labels fixed by the downstream parser contract and the documented example
`"✅ Claim appears credible | Credibility Score: 85% | ..."`. -/
def renderExplanation (verdictLine : List Char) (credibility confidence : Nat)
    (strongest : List Char) (signals : List (List Char)) : List Char :=
  verdictLine ++ " | Credibility Score: ".data ++ natRepr credibility ++
    "% | Confidence: ".data ++ natRepr confidence ++
    "% | Strongest factor: ".data ++ strongest ++
    " | Signals: ".data ++ ThinkBaby.joinSep ", ".data signals

end CredEngine

namespace TruthMatrix

open ThinkBaby (wsB digitB jsTrim splitChar)

/-- Matching a literal pattern at the current position, returning the rest
of the input on success. -/
def matchLit : List Char → List Char → Option (List Char)
  | [], s => some s
  | _ :: _, [] => none
  | p :: ps, c :: cs => if p = c then matchLit ps cs else none

/-- Leftmost-match search: JavaScript `String.prototype.match` tries the
matcher at every position from the left and returns its first success. -/
def findFirst (m : List Char → Option α) : List Char → Option α
  | [] => m []
  | c :: cs =>
    match m (c :: cs) with
    | some x => some x
    | none => findFirst m cs

/-- A matcher that requires a literal and hands the rest to `k`. -/
def litMatcher (lit : List Char) (k : List Char → Option α)
    (s : List Char) : Option α :=
  (matchLit lit s).bind k

/-- Value of a digit string, modelling `parseInt` on a `(\d+)` capture. -/
def digitsToNat (ds : List Char) : Nat :=
  ds.foldl (fun a c => 10 * a + (c.toNat - 48)) 0

/-- Continuation for the regexes `/...:\s*(\d+)%/`: skip whitespace, take
a non-empty maximal digit run, require `%`, return the parsed value.
(Backtracking cannot produce any other division: characters given back by
`\s*` are whitespace, not digits, and ones given back by `(\d+)` are
digits, not `%`.) -/
def pctAfter (r : List Char) : Option Nat :=
  let r1 := r.dropWhile wsB
  match r1.takeWhile digitB, r1.dropWhile digitB with
  | [], _ => none
  | ds, '%' :: _ => some (digitsToNat ds)
  | _, _ => none

/-- Non-`|` character test for the regex class `[^|]` and for `split('|')`. -/
def notPipeB (c : Char) : Bool := !(c == '|')

/-- Continuation for `/Strongest factor:\s*([^|]+)/`: the capture is the
maximal non-`|` run after the whitespace; when that run is empty but the
whitespace is not, `\s*` backtracks by one character and `([^|]+)`
captures that single whitespace character. -/
def strongAfter (r : List Char) : Option (List Char) :=
  let w := r.takeWhile wsB
  let r1 := r.dropWhile wsB
  match r1.takeWhile notPipeB with
  | [] => (match w.getLast? with | some c => some [c] | none => none)
  | seg => some seg

/-- Continuation for `/Signals:\s*(.+?)(?:\||$)/`: the lazy capture after
the whitespace is the shortest non-empty prefix ending at the first
later `|` or at the end of the string (the first captured character may
itself be `|`); when nothing follows the whitespace but the whitespace is
non-empty, `\s*` backtracks by one character. -/
def signalsAfter (r : List Char) : Option (List Char) :=
  let w := r.takeWhile wsB
  let r1 := r.dropWhile wsB
  match r1 with
  | [] => (match w.getLast? with | some c => some [c] | none => none)
  | c :: rest => some (c :: rest.takeWhile notPipeB)

def credKey : List Char := "Credibility Score:".data
def confKey : List Char := "Confidence:".data
def strongKey : List Char := "Strongest factor:".data
def signalsKey : List Char := "Signals:".data

/-- The record returned by `parseExplanation` (TruthMatrix.tsx 117–123). -/
structure Parsed where
  credibility : Option Nat
  confidence : Option Nat
  strongestFactor : Option (List Char)
  signals : List (List Char)
  verdictLine : List Char
deriving Repr, DecidableEq

/-- `parseExplanation` (TruthMatrix.tsx lines 97–124).  `strongestFactor`
is the trimmed capture (kept even when it trims to the empty string, as in
the source, where `''` is distinct from `null`); `signals` is empty when
the `Signals:` capture is missing or trims to the falsy `''`, and
otherwise the capture split on `,`, trimmed, with empties dropped;
`verdictLine` is the text before the first `|`, trimmed. -/
def parseExplanation (explanation : List Char) : Parsed :=
  let credibility := findFirst (litMatcher credKey pctAfter) explanation
  let confidence := findFirst (litMatcher confKey pctAfter) explanation
  let strongestFactor :=
    (findFirst (litMatcher strongKey strongAfter) explanation).map jsTrim
  let signalsText :=
    (findFirst (litMatcher signalsKey signalsAfter) explanation).map jsTrim
  let signals :=
    match signalsText with
    | some t =>
      if t.isEmpty then []
      else ((splitChar ',' t).map jsTrim).filter (fun s => !s.isEmpty)
    | none => []
  let verdictLine := jsTrim (explanation.takeWhile notPipeB)
  ⟨credibility, confidence, strongestFactor, signals, verdictLine⟩

/-- Characters allowed in a signal token: no `,` (the list separator), no
`|` (the field separator), and no whitespace. -/
def sigChar (c : Char) : Bool :=
  !(decide (c = ',')) && !(decide (c = '|')) && !(ThinkBaby.wsB c)

end TruthMatrix

namespace ThinkBaby

/-- C8: for every message text (and any claims list), `calculateRiskScore`
returns a value between the neutral baseline 50 and 100 inclusive: it only
ever adds penalties to the 50 baseline and clamps the result, so no input
is rated safer than neutral. -/
theorem calculateRiskScore_bounds (text : List Char) (claims : List (List Char)) :
    50 ≤ calculateRiskScore text claims ∧ calculateRiskScore text claims ≤ 100 := by
  unfold calculateRiskScore
  dsimp only
  split_ifs <;> omega

/-- C10: in the WhatsApp report formatter, a claim with blockchain status
`Under Review` and at least one vote is reported `Likely True` exactly when
strictly more true than false votes were cast, and `Likely False`
otherwise — an exact tie is reported `Likely False`. -/
theorem whatsAppFinalStatus_under_review (t f : Nat) (h : 0 < t + f) :
    (f < t → whatsAppFinalStatus "Under Review".data t f = "Likely True".data) ∧
    (t ≤ f → whatsAppFinalStatus "Under Review".data t f = "Likely False".data) := by
  unfold whatsAppFinalStatus
  rw [if_pos rfl, if_pos h]
  constructor
  · intro hlt
    rw [if_pos hlt]
  · intro hle
    rw [if_neg (by omega)]

/-- Witness for C10 at the exact tie 2–2: reported `Likely False`. -/
theorem whatsAppFinalStatus_under_review_witness :
    0 < 2 + 2 ∧
      (2 ≤ 2 → whatsAppFinalStatus "Under Review".data 2 2 = "Likely False".data) :=
  ⟨by decide, (whatsAppFinalStatus_under_review 2 2 (by decide)).2⟩

/-- C4: scoring is deterministic — two calls of `analyzeMessage` on the
same text, with possibly different clock values, agree on every field
(claims, risk score, explanation) except the timestamp. -/
theorem analyzeMessage_deterministic (text now₁ now₂ : List Char) :
    (analyzeMessage text now₁).map
        (fun r => (r.claims, r.riskScore, r.explanation)) =
      (analyzeMessage text now₂).map
        (fun r => (r.claims, r.riskScore, r.explanation)) := by
  unfold analyzeMessage
  split <;> rfl

/-- C3: `analyzeMessage` fails exactly on text that trims to empty, with a
validation error and no partial result; on every other text it returns a
complete result carrying the supplied timestamp, without raising. -/
theorem analyzeMessage_validation (text now : List Char) :
    (jsTrim text = [] →
      analyzeMessage text now =
        Except.error "Claim extraction failed: Message text cannot be empty".data) ∧
    (jsTrim text ≠ [] →
      ∃ r : AnalysisResult, analyzeMessage text now = Except.ok r ∧
        r.timestamp = now) := by
  constructor
  · intro h
    unfold analyzeMessage
    rw [if_pos (by simp [h])]
  · intro h
    unfold analyzeMessage
    rw [if_neg (by simpa using h)]
    exact ⟨_, rfl, rfl⟩

/-- Helper: the head of `dropWhile p l` does not satisfy `p`. -/
theorem head?_dropWhile_ne {p : α → Bool} {l : List α} {c : α}
    (hc : (l.dropWhile p).head? = some c) : p c = false := by
  have h := List.head?_dropWhile_not p l
  rw [hc] at h
  exact h

/-- Helper: `dropWhile` is the identity when the head fails the predicate. -/
theorem dropWhile_eq_self_of_head? {p : α → Bool} {l : List α}
    (h : ∀ c, l.head? = some c → p c = false) : l.dropWhile p = l := by
  cases l with
  | nil => rfl
  | cons a t => exact List.dropWhile_cons_of_neg (by simp [h a rfl])

/-- Helper: `dropWhile` keeps the last element when its result is non-empty. -/
theorem getLast?_dropWhile_of_ne_nil {p : α → Bool} {l : List α}
    (h : l.dropWhile p ≠ []) : (l.dropWhile p).getLast? = l.getLast? := by
  obtain ⟨t, ht⟩ := (List.dropWhile_suffix p : l.dropWhile p <:+ l)
  conv_rhs => rw [← ht]
  rw [List.getLast?_append]
  cases hg : (l.dropWhile p).getLast? with
  | none => exact absurd (List.getLast?_eq_none_iff.mp hg) h
  | some c => rfl

/-- Helper: the first character of a trimmed string is not whitespace. -/
theorem jsTrim_head? {s : List Char} {c : Char}
    (hc : (jsTrim s).head? = some c) : wsB c = false := by
  unfold jsTrim at hc
  rw [List.head?_reverse] at hc
  by_cases hB : ((s.dropWhile wsB).reverse.dropWhile wsB) = []
  · rw [hB] at hc; cases hc
  · rw [getLast?_dropWhile_of_ne_nil hB, List.getLast?_reverse] at hc
    exact head?_dropWhile_ne hc

/-- Helper: the last character of a trimmed string is not whitespace. -/
theorem jsTrim_getLast? {s : List Char} {c : Char}
    (hc : (jsTrim s).getLast? = some c) : wsB c = false := by
  unfold jsTrim at hc
  rw [List.getLast?_reverse] at hc
  exact head?_dropWhile_ne hc

/-- Helper: trimming is the identity on strings with non-whitespace ends. -/
theorem jsTrim_eq_self {s : List Char}
    (h1 : ∀ c, s.head? = some c → wsB c = false)
    (h2 : ∀ c, s.getLast? = some c → wsB c = false) : jsTrim s = s := by
  unfold jsTrim
  rw [dropWhile_eq_self_of_head? h1,
    dropWhile_eq_self_of_head? (fun c hc => h2 c (by rwa [List.head?_reverse] at hc)),
    List.reverse_reverse]

/-- Helper: `jsTrim` is idempotent. -/
theorem jsTrim_idem (s : List Char) : jsTrim (jsTrim s) = jsTrim s :=
  jsTrim_eq_self (fun _ => jsTrim_head?) (fun _ => jsTrim_getLast?)

/-- C9: `extractClaims` yields at most 3 claims, each trimmed and strictly
longer than 10 characters; when no trimmed fragment exceeds 10 characters
the list is empty; and `analyzeMessage` succeeds on any non-blank text
regardless, returning exactly that (possibly empty) claims list. -/
theorem extractClaims_shape (text now : List Char) :
    (extractClaims text).length ≤ 3 ∧
    (∀ c ∈ extractClaims text, 10 < c.length ∧ jsTrim c = c) ∧
    ((∀ s ∈ (splitRuns sentenceDelimB text).map jsTrim, s.length ≤ 10) →
      extractClaims text = []) ∧
    (jsTrim text ≠ [] →
      ∃ r : AnalysisResult, analyzeMessage text now = Except.ok r ∧
        r.claims = extractClaims text) := by
  refine ⟨?_, ?_, ?_, ?_⟩
  · exact List.length_take_le 3 _
  · intro c hc
    have hc' := List.mem_of_mem_take hc
    have hmem := List.mem_filter.mp hc'
    obtain ⟨x, _, rfl⟩ := List.mem_map.mp hmem.1
    exact ⟨by simpa using hmem.2, jsTrim_idem x⟩
  · intro h
    unfold extractClaims
    rw [List.filter_eq_nil_iff.mpr (fun a ha => by simpa using Nat.not_lt.mpr (h a ha))]
    rfl
  · intro h
    unfold analyzeMessage
    rw [if_neg (by simpa using h)]
    exact ⟨_, rfl, rfl⟩

/-- Witness for C9: a text whose fragments are all short yields no claims
but still scores. -/
theorem extractClaims_shape_witness :
    (jsTrim "hi. yo. ok.".data ≠ [] ∧
      ∃ r : AnalysisResult,
        analyzeMessage "hi. yo. ok.".data "t0".data = Except.ok r ∧
          r.claims = extractClaims "hi. yo. ok.".data) ∧
    ((∀ s ∈ (splitRuns sentenceDelimB "hi. yo. ok.".data).map jsTrim,
        s.length ≤ 10) →
      extractClaims "hi. yo. ok.".data = []) :=
  ⟨⟨by decide, (extractClaims_shape "hi. yo. ok.".data "t0".data).2.2.2 (by decide)⟩,
   (extractClaims_shape "hi. yo. ok.".data "t0".data).2.2.1⟩

/-- Helper: lowering a character never yields an uppercase ASCII letter. -/
theorem jsToLower_not_upper (c : Char) :
    ('A' ≤ jsToLower c && jsToLower c ≤ 'Z') = false := by
  have hle : ∀ a b : Char, a ≤ b ↔ a.toNat ≤ b.toNat := by
    intro a b
    rw [Char.le_def, UInt32.le_def, BitVec.le_def]
    rfl
  unfold jsToLower
  by_cases h : ('A' ≤ c && c ≤ 'Z') = true
  · rw [if_pos h]
    simp only [Bool.and_eq_true, decide_eq_true_eq] at h
    have h2 : c.toNat ≤ 90 := by
      have := (hle c 'Z').mp h.2
      simpa using this
    have hv : (c.toNat + 32).isValidChar := Or.inl (by omega)
    have ht : (Char.ofNat (c.toNat + 32)).toNat = c.toNat + 32 := by
      unfold Char.ofNat
      rw [dif_pos hv]
      rfl
    have : ¬ (Char.ofNat (c.toNat + 32) ≤ 'Z') := by
      rw [hle]
      rw [ht]
      have h1 : 65 ≤ c.toNat := by
        have := (hle 'A' c).mp h.1
        simpa using this
      show ¬ (c.toNat + 32 ≤ ('Z' : Char).toNat)
      have : ('Z' : Char).toNat = 90 := rfl
      omega
    simp [this]
  · rw [if_neg h]
    simpa using h

/-- Helper: the lowercased text `calculateRiskScore` actually receives
contains no uppercase ASCII letter at all. -/
theorem capsCount_map_jsToLower (l : List Char) :
    capsCount (l.map jsToLower) = 0 := by
  unfold capsCount
  rw [List.length_eq_zero]
  rw [List.filter_eq_nil_iff]
  intro a ha
  obtain ⟨c, _, rfl⟩ := List.mem_map.mp ha
  simp [jsToLower_not_upper c]

/-- C2 (code bug): the ALL-CAPS penalty of `calculateRiskScore` can never
fire, because `performAnalysis` lowercases the text before scoring it
(claimExtractor.js lines 42/48): the scored text never contains an
uppercase letter, and a fully capitalised message (caps ratio 100% > 50%)
receives exactly the same risk score as its lowercase variant instead of a
strictly worse one. -/
theorem caps_penalty_unreachable :
    (∀ text : List Char, capsCount ((jsTrim text).map jsToLower) = 0) ∧
    (performAnalysis "GOVERNMENT CASH FOR ALL CITIZENS!".data).riskScore =
      (performAnalysis "government cash for all citizens!".data).riskScore := by
  constructor
  · intro text
    exact capsCount_map_jsToLower _
  · show calculateRiskScore ((jsTrim "GOVERNMENT CASH FOR ALL CITIZENS!".data).map jsToLower)
        (extractClaims "GOVERNMENT CASH FOR ALL CITIZENS!".data) =
      calculateRiskScore ((jsTrim "government cash for all citizens!".data).map jsToLower)
        (extractClaims "government cash for all citizens!".data)
    have hn : (jsTrim "GOVERNMENT CASH FOR ALL CITIZENS!".data).map jsToLower =
        (jsTrim "government cash for all citizens!".data).map jsToLower := by decide
    rw [hn]
    rfl

/-- Witness for C3: whitespace-only text is rejected with the validation
error; the non-empty text `"hello"` is scored without error. -/
theorem analyzeMessage_validation_witness :
    (jsTrim "  ".data = [] ∧
      analyzeMessage "  ".data "t0".data =
        Except.error "Claim extraction failed: Message text cannot be empty".data) ∧
    (jsTrim "hello".data ≠ [] ∧
      ∃ r : AnalysisResult, analyzeMessage "hello".data "t0".data = Except.ok r ∧
        r.timestamp = "t0".data) :=
  ⟨⟨by decide, (analyzeMessage_validation "  ".data "t0".data).1 (by decide)⟩,
   ⟨by decide, (analyzeMessage_validation "hello".data "t0".data).2 (by decide)⟩⟩

end ThinkBaby

namespace CredEngine

/-- C1: the verdict classification is an exact threshold contract on the
composite score — whenever neither override rule (breaking-news, fully
unverified) applies, a score of at least 0.72 is TRUE, a score strictly
below 0.40 is FALSE, and the boundaries resolve to the lower-confidence
branch: exactly 0.72 is TRUE and exactly 0.40 is UNCERTAIN (at high risk),
not FALSE. -/
theorem classify_threshold_exact (floor : ℚ) (b sf ndm : Bool) (s : ℚ)
    (h1 : ¬(b = true ∧ ¬ s < floor)) (h2 : ¬(sf = false ∧ ndm = true)) :
    (72/100 ≤ s → (classify floor b sf ndm s).1 = Verdict.TRUE) ∧
    (s < 40/100 → (classify floor b sf ndm s).1 = Verdict.FALSE) ∧
    (s = 72/100 → (classify floor b sf ndm s).1 = Verdict.TRUE) ∧
    (s = 40/100 → (classify floor b sf ndm s).1 = Verdict.UNCERTAIN ∧
      (classify floor b sf ndm s).2 = RiskLevel.high) := by
  unfold classify
  rw [if_neg h1, if_neg h2]
  refine ⟨?_, ?_, ?_, ?_⟩
  · intro h
    rw [if_pos h]
  · intro h
    rw [if_neg (by intro hge; exact absurd (lt_of_lt_of_le h (by norm_num)) (not_lt.mpr hge)),
      if_pos h]
  · intro h
    subst h
    rw [if_pos (by norm_num)]
  · intro h
    subst h
    rw [if_neg (by norm_num), if_neg (by norm_num)]
    exact ⟨rfl, by rw [if_neg (by norm_num)]⟩

/-- Witness for C1 at score exactly 0.72 with no override firing. -/
theorem classify_threshold_exact_witness :
    (¬((false : Bool) = true ∧ ¬ (72 : ℚ)/100 < 1/2)) ∧
    (¬((true : Bool) = false ∧ (false : Bool) = true)) ∧
    (classify (1/2) false true false (72/100)).1 = Verdict.TRUE :=
  ⟨by simp, by simp,
    (classify_threshold_exact (1/2) false true false (72/100)
      (by simp) (by simp)).2.2.1 rfl⟩

/-- C6: at or above the 5-vote threshold the community layer score is the
validator-3x-weighted ratio `weightedTrue / (weightedTrue + weightedFalse)`;
in particular `userVotes={true:5,false:20}`, `validatorVotes={true:0,false:3}`
scores 5/34 with the flag `community_consensus_false`. -/
theorem communityLayer_weighted :
    (∀ v : Votes,
      5 ≤ v.userTrue + v.userFalse + v.validatorTrue + v.validatorFalse →
      (communityLayer v).1 =
        ((v.userTrue : ℚ) + 3 * v.validatorTrue) /
          (((v.userTrue : ℚ) + 3 * v.validatorTrue) +
            ((v.userFalse : ℚ) + 3 * v.validatorFalse))) ∧
    (communityLayer ⟨5, 20, 0, 3⟩).1 = 5/34 ∧
    (communityLayer ⟨5, 20, 0, 3⟩).2 = ["community_consensus_false".data] := by
  refine ⟨?_, ?_, ?_⟩
  · intro v h
    unfold communityLayer
    rw [if_neg (by omega)]
  · unfold communityLayer
    rw [if_neg (by norm_num)]
    norm_num
  · unfold communityLayer
    rw [if_neg (by norm_num)]
    norm_num

/-- Witness for C6 at the documented vote tally. -/
theorem communityLayer_weighted_witness :
    5 ≤ 5 + 20 + 0 + 3 ∧
    (communityLayer ⟨5, 20, 0, 3⟩).1 =
      (((5 : Nat) : ℚ) + 3 * ((0 : Nat) : ℚ)) /
        ((((5 : Nat) : ℚ) + 3 * ((0 : Nat) : ℚ)) +
          (((20 : Nat) : ℚ) + 3 * ((3 : Nat) : ℚ))) :=
  ⟨by decide, communityLayer_weighted.1 ⟨5, 20, 0, 3⟩ (by decide)⟩

end CredEngine

namespace ThinkBaby

/-- Helper: `splitRuns` never returns the empty list of parts. -/
theorem splitRuns_ne_nil (p : Char → Bool) (l : List Char) :
    splitRuns p l ≠ [] := by
  induction l with
  | nil => simp [splitRuns]
  | cons c cs ih =>
    rw [splitRuns.eq_def]
    dsimp only
    split
    · split
      · split
        · exact ih
        · simp
      · simp
    · split
      · simp
      · simp

/-- Helper: joining with a separator after extending the first part. -/
theorem joinSep_cons_head (sep : List Char) (c : Char) (t : List Char)
    (ts : List (List Char)) :
    joinSep sep ((c :: t) :: ts) = c :: joinSep sep (t :: ts) := by
  cases ts <;> simp [joinSep]

/-- Helper: joining the whitespace-run split with single spaces collapses
every whitespace run to one space (the spec's normal form, modulo trim). -/
theorem joinSep_splitRuns_eq_collapseWs (l : List Char) :
    joinSep " ".data (splitRuns wsB l) = specNormalForm.collapseWs l := by
  induction l with
  | nil => rfl
  | cons c cs ih =>
    rw [splitRuns.eq_def, specNormalForm.collapseWs.eq_def]
    dsimp only
    by_cases hc : wsB c
    · rw [if_pos hc, if_pos hc]
      cases cs with
      | nil => rfl
      | cons d t =>
        dsimp only
        by_cases hd : wsB d
        · rw [if_pos hd, if_pos hd]
          exact ih
        · rw [if_neg hd, if_neg hd, ← ih]
          obtain ⟨r0, rs, hr⟩ := List.exists_cons_of_ne_nil (splitRuns_ne_nil wsB (d :: t))
          rw [hr]
          rfl
    · rw [if_neg hc, if_neg hc]
      obtain ⟨r0, rs, hr⟩ := List.exists_cons_of_ne_nil (splitRuns_ne_nil wsB cs)
      rw [hr]
      rw [hr] at ih
      rw [joinSep_cons_head, ih]

end ThinkBaby

namespace ThinkBaby

/-- Helper: `splitRuns` on a singleton. -/
theorem splitRuns_singleton (p : Char → Bool) (a : Char) :
    splitRuns p [a] = if p a then [[], []] else [[a]] := by
  rw [splitRuns.eq_def]
  dsimp only
  by_cases ha : p a
  · rw [if_pos ha, if_pos ha]
    rfl
  · rw [if_neg ha, if_neg ha]
    rfl

/-- Helper: a whitespace head followed by more whitespace is absorbed. -/
theorem splitRuns_cons_pos_pos {a b : Char} (t : List Char)
    (ha : wsB a = true) (hb : wsB b = true) :
    splitRuns wsB (a :: b :: t) = splitRuns wsB (b :: t) := by
  rw [splitRuns.eq_def]
  dsimp only
  rw [if_pos ha, if_pos hb]

/-- Helper: a whitespace head before a non-whitespace character opens an
empty leading part. -/
theorem splitRuns_cons_pos_neg {a b : Char} (t : List Char)
    (ha : wsB a = true) (hb : wsB b = false) :
    splitRuns wsB (a :: b :: t) = [] :: splitRuns wsB (b :: t) := by
  rw [splitRuns.eq_def]
  dsimp only
  rw [if_pos ha, if_neg (by simp [hb])]

/-- Helper: a non-whitespace head extends the first part. -/
theorem splitRuns_cons_neg {a : Char} {t r0 : List Char} {rs : List (List Char)}
    (ha : wsB a = false) (hr : splitRuns wsB t = r0 :: rs) :
    splitRuns wsB (a :: t) = (a :: r0) :: rs := by
  rw [splitRuns.eq_def]
  dsimp only
  rw [if_neg (by simp [ha]), hr]

/-- Helper: appending a whitespace character either extends a final
whitespace run or opens a trailing empty part. -/
theorem splitRuns_append_ws {c : Char} (h : wsB c = true) (l : List Char) :
    splitRuns wsB (l ++ [c]) =
      if endsWs l then splitRuns wsB l else splitRuns wsB l ++ [[]] := by
  induction l with
  | nil =>
    rw [List.nil_append, splitRuns_singleton, if_pos h,
      if_neg (by simp [endsWs])]
    rfl
  | cons a t ih =>
    cases t with
    | nil =>
      simp only [List.cons_append, List.nil_append]
      by_cases ha : wsB a
      · rw [splitRuns_cons_pos_pos [] ha h,
          if_pos (show endsWs [a] = true by simp [endsWs, ha]),
          splitRuns_singleton wsB c, if_pos h,
          splitRuns_singleton wsB a, if_pos ha]
      · have ha' : wsB a = false := by simpa using ha
        rw [splitRuns_cons_neg ha' (by rw [splitRuns_singleton, if_pos h]),
          if_neg (show ¬ endsWs [a] = true by simp [endsWs, ha']),
          splitRuns_singleton wsB a, if_neg (by simp [ha'])]
        rfl
    | cons b t' =>
      simp only [List.cons_append] at ih ⊢
      have he : endsWs (a :: b :: t') = endsWs (b :: t') := by
        simp [endsWs, List.getLast?_cons_cons]
      by_cases ha : wsB a
      · by_cases hb : wsB b
        · rw [splitRuns_cons_pos_pos _ ha hb, ih, he,
            splitRuns_cons_pos_pos _ ha hb]
        · have hb' : wsB b = false := by simpa using hb
          rw [splitRuns_cons_pos_neg _ ha hb', ih, he,
            splitRuns_cons_pos_neg _ ha hb']
          by_cases hE : endsWs (b :: t') = true
          · rw [if_pos hE, if_pos hE]
          · rw [if_neg hE, if_neg hE]
            rfl
      · have ha' : wsB a = false := by simpa using ha
        obtain ⟨s0, ss, hs⟩ :=
          List.exists_cons_of_ne_nil (splitRuns_ne_nil wsB (b :: t'))
        by_cases hE : endsWs (b :: t') = true
        · have hX : splitRuns wsB (b :: (t' ++ [c])) = s0 :: ss := by
            rw [ih, if_pos hE, hs]
          rw [splitRuns_cons_neg ha' hX, he, if_pos hE,
            splitRuns_cons_neg ha' hs]
        · have hX : splitRuns wsB (b :: (t' ++ [c])) = s0 :: (ss ++ [[]]) := by
            rw [ih, if_neg hE, hs]
            rfl
          rw [splitRuns_cons_neg ha' hX, he, if_neg hE,
            splitRuns_cons_neg ha' hs]
          rfl

/-- Helper: a leading whitespace character contributes no word. -/
theorem wordsOf_cons_ws {c : Char} (cs : List Char) (h : wsB c = true) :
    wordsOf (c :: cs) = wordsOf cs := by
  unfold wordsOf
  cases cs with
  | nil =>
    rw [splitRuns_singleton, if_pos h]
    rfl
  | cons d t =>
    by_cases hd : wsB d
    · rw [splitRuns_cons_pos_pos _ h hd]
    · have hd' : wsB d = false := by simpa using hd
      rw [splitRuns_cons_pos_neg _ h hd']
      rfl

/-- Helper: a trailing whitespace character contributes no word. -/
theorem wordsOf_append_ws {c : Char} (h : wsB c = true) (l : List Char) :
    wordsOf (l ++ [c]) = wordsOf l := by
  unfold wordsOf
  rw [splitRuns_append_ws h]
  by_cases hE : endsWs l = true
  · rw [if_pos hE]
  · rw [if_neg hE, List.filter_append]
    simp

/-- Helper: dropping leading whitespace preserves the words. -/
theorem wordsOf_dropWhile_ws (l : List Char) :
    wordsOf (l.dropWhile wsB) = wordsOf l := by
  induction l with
  | nil => rfl
  | cons a t ih =>
    by_cases ha : wsB a
    · rw [List.dropWhile_cons_of_pos ha, ih, wordsOf_cons_ws t ha]
    · rw [List.dropWhile_cons_of_neg ha]

/-- Helper: dropping trailing whitespace preserves the words. -/
theorem wordsOf_trimEnd (l : List Char) :
    wordsOf ((l.reverse.dropWhile wsB).reverse) = wordsOf l := by
  induction l using List.reverseRecOn with
  | nil => rfl
  | append_singleton ys y ih =>
    have hrev : (ys ++ [y]).reverse = y :: ys.reverse := by simp
    rw [hrev]
    by_cases hy : wsB y
    · rw [List.dropWhile_cons_of_pos hy, ih, wordsOf_append_ws hy]
    · rw [List.dropWhile_cons_of_neg hy,
        show (y :: ys.reverse).reverse = ys ++ [y] by simp]

/-- Helper: trimming preserves the words. -/
theorem wordsOf_jsTrim (l : List Char) : wordsOf (jsTrim l) = wordsOf l := by
  unfold jsTrim
  rw [wordsOf_trimEnd, wordsOf_dropWhile_ws]

/-- Helper: with a non-whitespace last character the parts after the first
are all non-empty, and with a non-whitespace first character as well no
part at all is empty. -/
theorem splitRuns_no_empty (t : List Char)
    (hlast : ∀ c, t.getLast? = some c → wsB c = false) :
    [] ∉ (splitRuns wsB t).tail ∧
      (t ≠ [] → (∀ c, t.head? = some c → wsB c = false) →
        [] ∉ splitRuns wsB t) := by
  induction t with
  | nil =>
    constructor
    · simp [splitRuns]
    · intro h
      exact absurd rfl h
  | cons a t' ih =>
    have hlast' : t' ≠ [] → ∀ c, t'.getLast? = some c → wsB c = false := by
      intro ht' c hc
      apply hlast
      cases t' with
      | nil => exact absurd rfl ht'
      | cons b u =>
        rw [List.getLast?_cons_cons]
        exact hc
    by_cases ha : wsB a
    · cases t' with
      | nil => exact absurd (hlast a (by simp)) (by simp [ha])
      | cons b u =>
        have ihh := ih (hlast' (by simp))
        by_cases hb : wsB b
        · rw [splitRuns_cons_pos_pos _ ha hb]
          refine ⟨ihh.1, ?_⟩
          intro _ hhead
          exact absurd (hhead a rfl) (by simp [ha])
        · have hb' : wsB b = false := by simpa using hb
          rw [splitRuns_cons_pos_neg _ ha hb']
          constructor
          · exact ihh.2 (by simp)
              (fun c hc => by rw [List.head?_cons] at hc; cases hc; exact hb')
          · intro _ hhead
            exact absurd (hhead a rfl) (by simp [ha])
    · have ha' : wsB a = false := by simpa using ha
      obtain ⟨s0, ss, hs⟩ :=
        List.exists_cons_of_ne_nil (splitRuns_ne_nil wsB t')
      rw [splitRuns_cons_neg ha' hs]
      have htail : [] ∉ ss := by
        cases t' with
        | nil =>
          have h0 : splitRuns wsB ([] : List Char) = [[]] := rfl
          rw [h0] at hs
          injection hs with h1 h2
          simp [← h2]
        | cons b u =>
          have h1 := (ih (hlast' (by simp))).1
          rw [hs] at h1
          simpa using h1
      constructor
      · simpa using htail
      · intro _ _
        simp [htail]

/-- Helper: for a trimmed non-empty string, no split part is empty, so the
empty-dropping filter is the identity. -/
theorem filter_splitRuns_trimmed (t : List Char) (hne : t ≠ [])
    (hh : ∀ c, t.head? = some c → wsB c = false)
    (hl : ∀ c, t.getLast? = some c → wsB c = false) :
    (splitRuns wsB t).filter (fun w => !w.isEmpty) = splitRuns wsB t := by
  rw [List.filter_eq_self]
  intro w hw
  have hwne : w ≠ [] := by
    intro e
    subst e
    exact (splitRuns_no_empty t hl).2 hne hh hw
  simpa [List.isEmpty_iff]

/-- Helper: the normalized text is the single-space join of the lowercase
words — it depends on the input only through `lowerWords`. -/
theorem normalizeText_eq_join_lowerWords (s : List Char) :
    normalizeText s = joinSep " ".data (lowerWords s) := by
  unfold normalizeText lowerWords
  rw [← wordsOf_jsTrim (s.map jsToLower)]
  by_cases h : jsTrim (s.map jsToLower) = []
  · rw [h]
    rfl
  · unfold wordsOf
    rw [filter_splitRuns_trimmed _ h (fun _ hc => jsTrim_head? hc)
      (fun _ hc => jsTrim_getLast? hc)]

/-- C5: `normalizeText` computes exactly the spec's normal form
(lowercase, trim, collapse each internal whitespace run to one space), and
`hashClaim` — the stock digest of the normalized text — is therefore equal
on any two strings that differ only in letter case or whitespace layout
(i.e. that have the same lowercase words). -/
theorem normalizeText_normal_form :
    (∀ s : List Char, normalizeText s = specNormalForm s) ∧
    (∀ (keccak : List Char → List Char) (s₁ s₂ : List Char),
      lowerWords s₁ = lowerWords s₂ →
      hashClaim keccak s₁ = hashClaim keccak s₂) := by
  constructor
  · intro s
    unfold normalizeText specNormalForm
    exact joinSep_splitRuns_eq_collapseWs _
  · intro k s₁ s₂ h
    unfold hashClaim
    rw [normalizeText_eq_join_lowerWords, normalizeText_eq_join_lowerWords, h]

/-- Witness for C5: two layouts/casings of "hello world" hash alike. -/
theorem normalizeText_normal_form_witness :
    lowerWords "  HeLLo   WORLD ".data = lowerWords "hello world".data ∧
    hashClaim List.reverse "  HeLLo   WORLD ".data =
      hashClaim List.reverse "hello world".data :=
  ⟨by decide,
    normalizeText_normal_form.2 List.reverse "  HeLLo   WORLD ".data
      "hello world".data (by decide)⟩

end ThinkBaby

namespace ThinkBaby

/-- Helper: character order reflects `toNat` order. -/
theorem char_le_iff (a b : Char) : a ≤ b ↔ a.toNat ≤ b.toNat := by
  rw [Char.le_def, UInt32.le_def, BitVec.le_def]
  rfl

/-- Helper: `Char.ofNat` of a valid scalar value has that value. -/
theorem char_toNat_ofNat {n : Nat} (h : n.isValidChar) :
    (Char.ofNat n).toNat = n := by
  unfold Char.ofNat
  rw [dif_pos h]
  rfl

/-- Helper: a decimal digit character is not whitespace. -/
theorem digitB_not_wsB {c : Char} (hc : digitB c = true) : wsB c = false := by
  by_contra hw
  have hw' : wsB c = true := by simpa using hw
  have : ((c = ' ' ∨ c = '\t') ∨ c = '\n') ∨ c = '\r' := by
    simpa [wsB, Bool.or_eq_true, decide_eq_true_eq] using hw'
  rcases this with ((rfl | rfl) | rfl) | rfl <;> exact absurd hc (by decide)

/-- Helper: a decimal digit character differs from any non-digit one. -/
theorem digitB_ne {c x : Char} (hc : digitB c = true) (hx : digitB x = false) :
    c ≠ x := by
  intro e
  subst e
  rw [hc] at hx
  cases hx

/-- Helper: trimming is the identity after removing one padding space. -/
theorem jsTrim_pad {f : List Char}
    (h1 : ∀ c, f.head? = some c → wsB c = false)
    (h2 : ∀ c, f.getLast? = some c → wsB c = false) :
    jsTrim (f ++ [' ']) = f := by
  cases f with
  | nil => decide
  | cons f0 ft =>
    have hf0 : wsB f0 = false := h1 f0 rfl
    have hA : List.dropWhile wsB (f0 :: (ft ++ [' '])) = f0 :: (ft ++ [' ']) :=
      List.dropWhile_cons_of_neg (by simp [hf0])
    have hB : (f0 :: (ft ++ [' '])).reverse = ' ' :: (f0 :: ft).reverse := by
      simp
    have hC : List.dropWhile wsB ((f0 :: ft).reverse) = (f0 :: ft).reverse :=
      dropWhile_eq_self_of_head?
        (fun c hc => h2 c (by rwa [List.head?_reverse] at hc))
    show ((List.dropWhile wsB (f0 :: (ft ++ [' ']))).reverse.dropWhile
        wsB).reverse = f0 :: ft
    rw [hA, hB, List.dropWhile_cons_of_pos (by decide), hC,
      List.reverse_reverse]

end ThinkBaby

namespace TruthMatrix

open ThinkBaby (wsB digitB jsTrim joinSep splitChar char_le_iff char_toNat_ofNat
  digitB_not_wsB digitB_ne dropWhile_eq_self_of_head? jsTrim_pad jsTrim_eq_self)

/-- Helper: a literal matches its own append, leaving the rest. -/
theorem matchLit_self_append (l r : List Char) : matchLit l (l ++ r) = some r := by
  induction l with
  | nil => rfl
  | cons c cs ih =>
    rw [List.cons_append]
    unfold matchLit
    rw [if_pos rfl]
    exact ih

/-- Helper: `findFirst` steps over a position where the matcher fails. -/
theorem findFirst_cons_of_none {m : List Char → Option α} {c : Char}
    {cs : List Char} (h : m (c :: cs) = none) :
    findFirst m (c :: cs) = findFirst m cs := by
  conv_lhs => unfold findFirst
  rw [h]

/-- Helper: `findFirst` returns a match found at the current position. -/
theorem findFirst_cons_of_some {m : List Char → Option α} {c : Char}
    {cs : List Char} {x : α} (h : m (c :: cs) = some x) :
    findFirst m (c :: cs) = some x := by
  unfold findFirst
  rw [h]

/-- Helper: a literal matcher fails where the head characters differ. -/
theorem litMatcher_cons_ne {p : Char} {ps : List Char} {k : List Char → Option α}
    {c : Char} {cs : List Char} (h : c ≠ p) :
    litMatcher (p :: ps) k (c :: cs) = none := by
  unfold litMatcher matchLit
  rw [if_neg (fun e => h e.symm)]
  rfl

/-- Helper: the search skips any region free of the literal's first
character. -/
theorem findFirst_skip {p : Char} {ps : List Char} {k : List Char → Option α}
    (u : List Char) {w : List Char} (h : ∀ x ∈ u, x ≠ p) :
    findFirst (litMatcher (p :: ps) k) (u ++ w) =
      findFirst (litMatcher (p :: ps) k) w := by
  induction u with
  | nil => rfl
  | cons c cs ih =>
    rw [List.cons_append,
      findFirst_cons_of_none (litMatcher_cons_ne (h c (by simp))),
      ih (fun x hx => h x (by simp [hx]))]

/-- Helper: the search succeeds at the position of the literal itself when
the continuation does. -/
theorem findFirst_start {lit : List Char} (hne : lit ≠ [])
    {k : List Char → Option α} {rest : List Char} {v : α}
    (hk : k rest = some v) :
    findFirst (litMatcher lit k) (lit ++ rest) = some v := by
  cases lit with
  | nil => exact absurd rfl hne
  | cons p ps =>
    rw [List.cons_append]
    apply findFirst_cons_of_some
    show (matchLit (p :: ps) (p :: (ps ++ rest))).bind k = some v
    rw [show p :: (ps ++ rest) = (p :: ps) ++ rest from rfl,
      matchLit_self_append]
    exact hk

/-- Helper: the digit characters of a decimal rendering. -/
theorem natRepr_digits (n : Nat) :
    ∀ c ∈ CredEngine.natRepr n, digitB c = true := by
  induction n using Nat.strong_induction_on with
  | _ n ih =>
    rw [CredEngine.natRepr]
    split
    · next h =>
      intro c hc
      rw [List.mem_singleton] at hc
      subst hc
      have hv : (48 + n).isValidChar := Or.inl (by omega)
      simp only [digitB, Bool.and_eq_true, decide_eq_true_eq]
      constructor
      · rw [char_le_iff]
        rw [char_toNat_ofNat hv]
        show 48 ≤ 48 + n
        omega
      · rw [char_le_iff]
        rw [char_toNat_ofNat hv]
        show 48 + n ≤ 57
        omega
    · next h =>
      intro c hc
      rw [List.mem_append] at hc
      rcases hc with hc | hc
      · exact ih (n / 10) (Nat.div_lt_self (by omega) (by omega)) c hc
      · rw [List.mem_singleton] at hc
        subst hc
        have hv : (48 + n % 10).isValidChar := Or.inl (by omega)
        simp only [digitB, Bool.and_eq_true, decide_eq_true_eq]
        constructor
        · rw [char_le_iff, char_toNat_ofNat hv]
          show 48 ≤ 48 + n % 10
          omega
        · rw [char_le_iff, char_toNat_ofNat hv]
          show 48 + n % 10 ≤ 57
          omega

/-- Helper: the decimal rendering is never empty. -/
theorem natRepr_ne_nil (n : Nat) : CredEngine.natRepr n ≠ [] := by
  rw [CredEngine.natRepr]
  split <;> simp

/-- Helper: `digitsToNat` over an appended final digit. -/
theorem digitsToNat_append (xs : List Char) (c : Char) :
    digitsToNat (xs ++ [c]) = 10 * digitsToNat xs + (c.toNat - 48) := by
  unfold digitsToNat
  rw [List.foldl_append]
  rfl

/-- Helper: `parseInt` inverts the decimal rendering. -/
theorem digitsToNat_natRepr (n : Nat) :
    digitsToNat (CredEngine.natRepr n) = n := by
  induction n using Nat.strong_induction_on with
  | _ n ih =>
    rw [CredEngine.natRepr]
    split
    · next h =>
      have hv : (48 + n).isValidChar := Or.inl (by omega)
      show digitsToNat [Char.ofNat (48 + n)] = n
      unfold digitsToNat
      simp [char_toNat_ofNat hv]
    · next h =>
      rw [digitsToNat_append,
        ih (n / 10) (Nat.div_lt_self (by omega) (by omega)),
        char_toNat_ofNat (show (48 + n % 10).isValidChar from Or.inl (by omega))]
      omega

end TruthMatrix

namespace TruthMatrix

open ThinkBaby (wsB digitB jsTrim joinSep splitChar digitB_not_wsB digitB_ne
  dropWhile_eq_self_of_head? jsTrim_pad jsTrim_eq_self)

/-- Helper: the head of a list is a member. -/
theorem mem_of_head? {l : List α} {x : α} (h : l.head? = some x) : x ∈ l := by
  cases l with
  | nil => cases h
  | cons a t =>
    rw [List.head?_cons] at h
    cases h
    exact List.mem_cons_self _ _

/-- Helper: the last element of a list is a member. -/
theorem mem_of_getLast? {l : List α} {x : α} (h : l.getLast? = some x) :
    x ∈ l := by
  obtain ⟨hne, rfl⟩ :=
    List.mem_getLast?_eq_getLast (show x ∈ l.getLast? from h)
  exact List.getLast_mem hne

/-- Helper: mapping a function that fixes every member is the identity. -/
theorem map_eq_self_of_mem {f : α → α} {l : List α}
    (h : ∀ x ∈ l, f x = x) : l.map f = l := by
  induction l with
  | nil => rfl
  | cons a t ih =>
    rw [List.map_cons, h a (by simp), ih (fun x hx => h x (by simp [hx]))]

/-- Helper: the percentage continuation on whitespace, digits, `%`. -/
theorem pctAfter_spec {ds R : List Char} (h1 : ds ≠ [])
    (h2 : ∀ c ∈ ds, digitB c = true) :
    pctAfter (' ' :: (ds ++ '%' :: R)) = some (digitsToNat ds) := by
  obtain ⟨d0, dt, rfl⟩ := List.exists_cons_of_ne_nil h1
  simp only [List.cons_append]
  unfold pctAfter
  dsimp only
  have hd0 : digitB d0 = true := h2 d0 (by simp)
  have hdt : ∀ c ∈ dt, digitB c = true := fun c hc => h2 c (by simp [hc])
  have hd : (' ' :: (d0 :: (dt ++ '%' :: R))).dropWhile wsB =
      d0 :: (dt ++ '%' :: R) := by
    rw [List.dropWhile_cons_of_pos (by decide),
      List.dropWhile_cons_of_neg (by simp [digitB_not_wsB hd0])]
  rw [hd]
  have ht : (d0 :: (dt ++ '%' :: R)).takeWhile digitB = d0 :: dt := by
    rw [List.takeWhile_cons_of_pos hd0, List.takeWhile_append_of_pos hdt,
      List.takeWhile_cons_of_neg (by decide)]
    rw [List.append_nil]
  have hdd : (d0 :: (dt ++ '%' :: R)).dropWhile digitB = '%' :: R := by
    rw [List.dropWhile_cons_of_pos hd0, List.dropWhile_append_of_pos hdt,
      List.dropWhile_cons_of_neg (by decide)]
  rw [ht, hdd]
  rfl

/-- Helper: the strongest-factor continuation captures up to the next `|`. -/
theorem strongAfter_spec {f R : List Char} (hne : f ≠ [])
    (hh : ∀ c, f.head? = some c → wsB c = false)
    (hp : ∀ c ∈ f, notPipeB c = true) :
    strongAfter (' ' :: (f ++ ' ' :: '|' :: R)) = some (f ++ [' ']) := by
  obtain ⟨f0, ft, rfl⟩ := List.exists_cons_of_ne_nil hne
  simp only [List.cons_append]
  unfold strongAfter
  dsimp only
  have hf0 : wsB f0 = false := hh f0 rfl
  have hd : (' ' :: (f0 :: (ft ++ ' ' :: '|' :: R))).dropWhile wsB =
      f0 :: (ft ++ ' ' :: '|' :: R) := by
    rw [List.dropWhile_cons_of_pos (by decide),
      List.dropWhile_cons_of_neg (by simp [hf0])]
  rw [hd]
  have ht : (f0 :: (ft ++ ' ' :: '|' :: R)).takeWhile notPipeB =
      f0 :: (ft ++ [' ']) := by
    rw [List.takeWhile_cons_of_pos (hp f0 (by simp)),
      List.takeWhile_append_of_pos (fun a ha => hp a (by simp [ha])),
      List.takeWhile_cons_of_pos (by decide),
      List.takeWhile_cons_of_neg (by decide)]
  rw [ht]

/-- Helper: the signals continuation captures the whole trailing list. -/
theorem signalsAfter_spec {J : List Char} (hne : J ≠ [])
    (hh : ∀ c, J.head? = some c → wsB c = false)
    (hp : ∀ c ∈ J, notPipeB c = true) :
    signalsAfter (' ' :: J) = some J := by
  obtain ⟨j0, jt, rfl⟩ := List.exists_cons_of_ne_nil hne
  unfold signalsAfter
  dsimp only
  have hd : (' ' :: j0 :: jt).dropWhile wsB = j0 :: jt := by
    rw [List.dropWhile_cons_of_pos (by decide),
      List.dropWhile_cons_of_neg (by simp [hh j0 rfl])]
  rw [hd]
  dsimp only
  rw [List.takeWhile_eq_self_iff.mpr (fun x hx => hp x (by simp [hx]))]

end TruthMatrix

namespace TruthMatrix

open ThinkBaby (wsB digitB jsTrim joinSep splitChar jsTrim_eq_self)

/-- Helper: components of a signal-character assumption. -/
theorem sigChar_spec {c : Char} (h : sigChar c = true) :
    c ≠ ',' ∧ c ≠ '|' ∧ wsB c = false := by
  simp only [sigChar, Bool.and_eq_true, Bool.not_eq_true', decide_eq_false_iff_not,
    Bool.not_eq_true] at h
  exact ⟨h.1.1, h.1.2, h.2⟩

/-- Helper: a signal character is not a pipe. -/
theorem sigChar_notPipe {c : Char} (h : sigChar c = true) : notPipeB c = true := by
  simp only [notPipeB, Bool.not_eq_true', beq_eq_false_iff_ne, ne_eq]
  exact (sigChar_spec h).2.1

/-- Helper: the comma-space join of non-empty parts is non-empty. -/
theorem joinComma_ne_nil : ∀ {sigs : List (List Char)}, sigs ≠ [] →
    (∀ s ∈ sigs, s ≠ []) → joinSep ", ".data sigs ≠ []
  | [], h, _ => absurd rfl h
  | [s], _, hs => by
    show s ≠ []
    exact hs s (by simp)
  | s :: s1 :: r, _, hs => by
    show s ++ ", ".data ++ joinSep ", ".data (s1 :: r) ≠ []
    simp [hs s (by simp)]

/-- Helper: the join starts with the first part's head. -/
theorem joinComma_head? : ∀ {s0 : List Char} {rest : List (List Char)},
    s0 ≠ [] → (joinSep ", ".data (s0 :: rest)).head? = s0.head? := by
  intro s0 rest h
  obtain ⟨c, s0', rfl⟩ := List.exists_cons_of_ne_nil h
  cases rest with
  | nil => rfl
  | cons s1 r2 => rfl

/-- Helper: the join ends inside its last part. -/
theorem joinComma_getLast? : ∀ {sigs : List (List Char)}, sigs ≠ [] →
    (∀ s ∈ sigs, s ≠ []) →
    ∃ s ∈ sigs, (joinSep ", ".data sigs).getLast? = s.getLast?
  | [], h, _ => absurd rfl h
  | [s], _, _ => ⟨s, by simp, rfl⟩
  | s :: s1 :: r, _, hs => by
    obtain ⟨t, ht, heq⟩ :=
      joinComma_getLast? (show (s1 :: r : List (List Char)) ≠ [] by simp)
        (fun x hx => hs x (by simp [hx]))
    refine ⟨t, by simp [ht], ?_⟩
    show (s ++ ", ".data ++ joinSep ", ".data (s1 :: r)).getLast? = t.getLast?
    rw [List.append_assoc, List.getLast?_append, List.getLast?_append, heq]
    have htne : t ≠ [] := hs t (by simp [ht])
    obtain ⟨z, hz⟩ : ∃ z, t.getLast? = some z := by
      cases hgl : t.getLast? with
      | none => exact absurd (List.getLast?_eq_none_iff.mp hgl) htne
      | some z => exact ⟨z, rfl⟩
    rw [hz]
    rfl

/-- Helper: every character of the join is a separator character or comes
from one of the parts. -/
theorem joinComma_mem : ∀ {sigs : List (List Char)} {c : Char},
    c ∈ joinSep ", ".data sigs → (c = ',' ∨ c = ' ') ∨ ∃ s ∈ sigs, c ∈ s := by
  intro sigs
  induction sigs with
  | nil =>
    intro c hc
    cases hc
  | cons s rest ih =>
    cases rest with
    | nil =>
      intro c hc
      exact Or.inr ⟨s, by simp, hc⟩
    | cons s1 r2 =>
      intro c hc
      have hc' : c ∈ s ++ ", ".data ++ joinSep ", ".data (s1 :: r2) := hc
      rw [List.append_assoc, List.mem_append, List.mem_append] at hc'
      rcases hc' with hcs | hsep | hrest
      · exact Or.inr ⟨s, by simp, hcs⟩
      · left
        rcases (by simpa using hsep : c = ',' ∨ c = ' ') with rfl | rfl
        · exact Or.inl rfl
        · exact Or.inr rfl
      · rcases ih hrest with h | ⟨t, ht, hct⟩
        · exact Or.inl h
        · exact Or.inr ⟨t, by simp [ht], hct⟩

/-- Helper: `split(',')` of a comma-free string is one part. -/
theorem splitChar_no_sep {sep : Char} :
    ∀ {s : List Char}, (∀ c ∈ s, c ≠ sep) → splitChar sep s = [s]
  | [], _ => rfl
  | c :: cs, h => by
    unfold splitChar
    rw [if_neg (h c (by simp)), splitChar_no_sep (fun x hx => h x (by simp [hx]))]

/-- Helper: `split` over a leading non-separator extends the first part. -/
theorem splitChar_cons_ne {sep c : Char} {X t : List Char}
    {ts : List (List Char)} (h : c ≠ sep) (hX : splitChar sep X = t :: ts) :
    splitChar sep (c :: X) = (c :: t) :: ts := by
  unfold splitChar
  rw [if_neg h, hX]

/-- Helper: `split` over a separator-free prefix extends the first part. -/
theorem splitChar_append_no_sep {sep : Char} :
    ∀ (a : List Char) {l t : List Char} {ts : List (List Char)},
      (∀ c ∈ a, c ≠ sep) → splitChar sep l = t :: ts →
      splitChar sep (a ++ l) = (a ++ t) :: ts
  | [], l, t, ts, _, hl => by simpa using hl
  | c :: a', l, t, ts, h, hl => by
    rw [List.cons_append,
      splitChar_cons_ne (h c (by simp))
        (splitChar_append_no_sep a' (fun x hx => h x (by simp [hx])) hl)]
    rfl

/-- Helper: splitting the comma-space join on commas recovers the parts,
the later ones with a leading space. -/
theorem splitChar_joinComma :
    ∀ (rest : List (List Char)) (s0 : List Char),
      (∀ c ∈ s0, c ≠ ',') → (∀ s ∈ rest, ∀ c ∈ s, c ≠ ',') →
      splitChar ',' (joinSep ", ".data (s0 :: rest)) =
        s0 :: rest.map (fun s => ' ' :: s) := by
  intro rest
  induction rest with
  | nil =>
    intro s0 h0 _
    exact splitChar_no_sep h0
  | cons s1 r2 ih =>
    intro s0 h0 hr
    have hJ' := ih s1 (hr s1 (by simp)) (fun s hs => hr s (by simp [hs]))
    have h1 : splitChar ',' (' ' :: joinSep ", ".data (s1 :: r2)) =
        (' ' :: s1) :: r2.map (fun s => ' ' :: s) :=
      splitChar_cons_ne (by decide) hJ'
    have h2 : splitChar ',' (',' :: ' ' :: joinSep ", ".data (s1 :: r2)) =
        [] :: (' ' :: s1) :: r2.map (fun s => ' ' :: s) := by
      unfold splitChar
      rw [if_pos rfl, h1]
    have h3 := splitChar_append_no_sep s0 h0 h2
    rw [List.append_nil] at h3
    show splitChar ',' (s0 ++ ", ".data ++ joinSep ", ".data (s1 :: r2)) =
      s0 :: (' ' :: s1) :: r2.map (fun s => ' ' :: s)
    rw [List.append_assoc]
    exact h3

end TruthMatrix

namespace TruthMatrix

open ThinkBaby (wsB digitB jsTrim joinSep splitChar)
open CredEngine (natRepr)

/-- Helper: splitting an `includesSub` refutation at the head position. -/
theorem includesSub_cons_false {pat : List Char} {c : Char} {cs : List Char}
    (h : ThinkBaby.includesSub pat (c :: cs) = false) :
    pat.isPrefixOf (c :: cs) = false ∧ ThinkBaby.includesSub pat cs = false := by
  unfold ThinkBaby.includesSub at h
  simpa [Bool.or_eq_false_iff] using h

/-- Helper: a pipe-free literal cannot match across a `|`: the match
either lies inside the part before the `|` (a prefix of one of its
suffixes) or reaches the `|` and fails there. -/
theorem matchLit_none_append_pipe :
    ∀ (lit u w : List Char), (∀ c ∈ lit, c ≠ '|') →
      lit.isPrefixOf u = false → matchLit lit (u ++ '|' :: w) = none
  | [], u, _, _, hp => by simp [List.isPrefixOf] at hp
  | p :: ps, [], w, hlp, _ => by
    rw [List.nil_append]
    unfold matchLit
    rw [if_neg (hlp p (by simp))]
  | p :: ps, a :: u', w, hlp, hp => by
    rw [List.cons_append]
    unfold matchLit
    by_cases hpa : p = a
    · rw [if_pos hpa]
      apply matchLit_none_append_pipe ps u' w (fun c hc => hlp c (by simp [hc]))
      subst hpa
      unfold List.isPrefixOf at hp
      simpa using hp
    · rw [if_neg hpa]

/-- Helper: the search skips a whole field in which the (pipe-free)
literal does not occur, together with the `|` separator that ends it —
a match starting inside the field would have to lie inside it or die at
the separator. -/
theorem findFirst_skip_to_pipe {p : Char} {ps : List Char}
    {k : List Char → Option α} (hlp : ∀ c ∈ p :: ps, c ≠ '|') :
    ∀ (u : List Char) {w : List Char},
      ThinkBaby.includesSub (p :: ps) u = false →
      findFirst (litMatcher (p :: ps) k) (u ++ '|' :: w) =
        findFirst (litMatcher (p :: ps) k) w
  | [], w, _ => by
    rw [List.nil_append,
      findFirst_cons_of_none
        (litMatcher_cons_ne (fun e => hlp p (by simp) e.symm))]
  | a :: u', w, h => by
    obtain ⟨h1, h2⟩ := includesSub_cons_false h
    rw [List.cons_append, findFirst_cons_of_none ?_,
      findFirst_skip_to_pipe hlp u' h2]
    show (matchLit (p :: ps) ((a :: u') ++ '|' :: w)).bind k = none
    rw [matchLit_none_append_pipe _ _ _ hlp h1]
    rfl

/-- Helper: re-associating a field followed by its `" | "` separator. -/
theorem split_pipe (a : List Char) (L : List Char) :
    a ++ (' ' :: '|' :: ' ' :: L) = (a ++ [' ']) ++ ('|' :: ' ' :: L) := by
  rw [List.append_assoc]
  rfl

/-- Helper: trimming ignores one leading space. -/
theorem jsTrim_cons_space (s : List Char) : jsTrim (' ' :: s) = jsTrim s := by
  unfold ThinkBaby.jsTrim
  rw [List.dropWhile_cons_of_pos (by decide)]

theorem cons_sep3 (L : List Char) :
    ' ' :: '|' :: ' ' :: L = [' ', '|', ' '] ++ L := rfl

theorem cons_sep4 (L : List Char) :
    '%' :: ' ' :: '|' :: ' ' :: L = ['%', ' ', '|', ' '] ++ L := rfl

theorem cons_sep1 (L : List Char) : ' ' :: L = [' '] ++ L := rfl

theorem credKey_cons (L : List Char) :
    credKey ++ L = 'C' :: ("redibility Score:".data ++ L) := rfl

theorem credKey_split (L : List Char) :
    credKey ++ L = "Credibility ".data ++ ("Score:".data ++ L) := rfl

theorem scoreKey_cons (L : List Char) :
    "Score:".data ++ L = 'S' :: ("core:".data ++ L) := rfl

theorem strongKey_cons (L : List Char) :
    strongKey ++ L = 'S' :: ("trongest factor:".data ++ L) := rfl

/-- Helper: the explanation string assembled by the Explainer, in fully
right-associated form. -/
theorem render_eq (v : List Char) (cred conf : Nat) (f : List Char)
    (sigs : List (List Char)) :
    CredEngine.renderExplanation v cred conf f sigs =
      v ++ (' ' :: '|' :: ' ' ::
        (credKey ++ (' ' ::
          (natRepr cred ++ ('%' :: ' ' :: '|' :: ' ' ::
            (confKey ++ (' ' ::
              (natRepr conf ++ ('%' :: ' ' :: '|' :: ' ' ::
                (strongKey ++ (' ' ::
                  (f ++ (' ' :: '|' :: ' ' ::
                    (signalsKey ++ (' ' ::
                      joinSep ", ".data sigs))))))))))))))) := by
  unfold CredEngine.renderExplanation credKey confKey strongKey signalsKey
  simp only [List.append_assoc]
  rfl

/-- Helper: the credibility percentage is found at its label. -/
theorem findCred_component (v : List Char) (cred conf : Nat) (f : List Char)
    (sigs : List (List Char))
    (hv : ThinkBaby.includesSub credKey (v ++ [' ']) = false) :
    findFirst (litMatcher credKey pctAfter)
      (v ++ (' ' :: '|' :: ' ' ::
        (credKey ++ (' ' ::
          (natRepr cred ++ ('%' :: ' ' :: '|' :: ' ' ::
            (confKey ++ (' ' ::
              (natRepr conf ++ ('%' :: ' ' :: '|' :: ' ' ::
                (strongKey ++ (' ' ::
                  (f ++ (' ' :: '|' :: ' ' ::
                    (signalsKey ++ (' ' ::
                      joinSep ", ".data sigs)))))))))))))))) = some cred := by
  rw [show credKey = 'C' :: "redibility Score:".data from rfl]
  rw [split_pipe v,
    findFirst_skip_to_pipe (by decide) (v ++ [' '])
      (show ThinkBaby.includesSub ('C' :: "redibility Score:".data)
        (v ++ [' ']) = false from hv),
    cons_sep1, findFirst_skip [' '] (by decide)]
  exact findFirst_start (List.cons_ne_nil _ _)
    (by rw [pctAfter_spec (natRepr_ne_nil cred) (natRepr_digits cred),
      digitsToNat_natRepr])

/-- Helper: the confidence percentage is found at its label, past the
credibility field. -/
theorem findConf_component (v : List Char) (cred conf : Nat) (f : List Char)
    (sigs : List (List Char))
    (hv : ThinkBaby.includesSub confKey (v ++ [' ']) = false) :
    findFirst (litMatcher confKey pctAfter)
      (v ++ (' ' :: '|' :: ' ' ::
        (credKey ++ (' ' ::
          (natRepr cred ++ ('%' :: ' ' :: '|' :: ' ' ::
            (confKey ++ (' ' ::
              (natRepr conf ++ ('%' :: ' ' :: '|' :: ' ' ::
                (strongKey ++ (' ' ::
                  (f ++ (' ' :: '|' :: ' ' ::
                    (signalsKey ++ (' ' ::
                      joinSep ", ".data sigs)))))))))))))))) = some conf := by
  rw [show confKey = 'C' :: "onfidence:".data from rfl]
  rw [split_pipe v,
    findFirst_skip_to_pipe (by decide) (v ++ [' '])
      (show ThinkBaby.includesSub ('C' :: "onfidence:".data)
        (v ++ [' ']) = false from hv),
    cons_sep1, findFirst_skip [' '] (by decide)]
  rw [credKey_cons, findFirst_cons_of_none (by rfl),
    findFirst_skip "redibility Score:".data (by decide)]
  rw [cons_sep1, findFirst_skip [' '] (by decide)]
  rw [findFirst_skip (natRepr cred)
    (fun x hx => ThinkBaby.digitB_ne (natRepr_digits cred x hx) (by decide))]
  rw [cons_sep4, findFirst_skip ['%', ' ', '|', ' '] (by decide)]
  exact findFirst_start (List.cons_ne_nil _ _)
    (by rw [pctAfter_spec (natRepr_ne_nil conf) (natRepr_digits conf),
      digitsToNat_natRepr])

end TruthMatrix

namespace TruthMatrix

open ThinkBaby (wsB digitB jsTrim joinSep splitChar)
open CredEngine (natRepr)

/-- Helper: the strongest-factor capture is found at its label and runs up
to the following separator. -/
theorem findStrong_component (v : List Char) (cred conf : Nat) (f : List Char)
    (sigs : List (List Char))
    (hv : ThinkBaby.includesSub strongKey (v ++ [' ']) = false)
    (hfne : f ≠ [])
    (hfh : ∀ c, f.head? = some c → wsB c = false)
    (hfp : ∀ c ∈ f, notPipeB c = true) :
    findFirst (litMatcher strongKey strongAfter)
      (v ++ (' ' :: '|' :: ' ' ::
        (credKey ++ (' ' ::
          (natRepr cred ++ ('%' :: ' ' :: '|' :: ' ' ::
            (confKey ++ (' ' ::
              (natRepr conf ++ ('%' :: ' ' :: '|' :: ' ' ::
                (strongKey ++ (' ' ::
                  (f ++ (' ' :: '|' :: ' ' ::
                    (signalsKey ++ (' ' ::
                      joinSep ", ".data sigs)))))))))))))))) =
      some (f ++ [' ']) := by
  rw [show strongKey = 'S' :: "trongest factor:".data from rfl]
  rw [split_pipe v,
    findFirst_skip_to_pipe (by decide) (v ++ [' '])
      (show ThinkBaby.includesSub ('S' :: "trongest factor:".data)
        (v ++ [' ']) = false from hv),
    cons_sep1, findFirst_skip [' '] (by decide)]
  rw [credKey_split, findFirst_skip "Credibility ".data (by decide)]
  rw [scoreKey_cons, findFirst_cons_of_none (by rfl),
    findFirst_skip "core:".data (by decide)]
  rw [cons_sep1, findFirst_skip [' '] (by decide)]
  rw [findFirst_skip (natRepr cred)
    (fun x hx => ThinkBaby.digitB_ne (natRepr_digits cred x hx) (by decide))]
  rw [cons_sep4, findFirst_skip ['%', ' ', '|', ' '] (by decide)]
  rw [findFirst_skip confKey (by decide)]
  rw [cons_sep1, findFirst_skip [' '] (by decide)]
  rw [findFirst_skip (natRepr conf)
    (fun x hx => ThinkBaby.digitB_ne (natRepr_digits conf x hx) (by decide))]
  rw [cons_sep4, findFirst_skip ['%', ' ', '|', ' '] (by decide)]
  exact findFirst_start (List.cons_ne_nil _ _) (strongAfter_spec hfne hfh hfp)

/-- Helper: the signals capture is found at its label and runs to the end
of the string. -/
theorem findSignals_component (v : List Char) (cred conf : Nat) (f : List Char)
    (sigs : List (List Char))
    (hv : ThinkBaby.includesSub signalsKey (v ++ [' ']) = false)
    (hf : ThinkBaby.includesSub signalsKey (f ++ [' ']) = false)
    (hJne : joinSep ", ".data sigs ≠ [])
    (hJh : ∀ c, (joinSep ", ".data sigs).head? = some c → wsB c = false)
    (hJp : ∀ c ∈ joinSep ", ".data sigs, notPipeB c = true) :
    findFirst (litMatcher signalsKey signalsAfter)
      (v ++ (' ' :: '|' :: ' ' ::
        (credKey ++ (' ' ::
          (natRepr cred ++ ('%' :: ' ' :: '|' :: ' ' ::
            (confKey ++ (' ' ::
              (natRepr conf ++ ('%' :: ' ' :: '|' :: ' ' ::
                (strongKey ++ (' ' ::
                  (f ++ (' ' :: '|' :: ' ' ::
                    (signalsKey ++ (' ' ::
                      joinSep ", ".data sigs)))))))))))))))) =
      some (joinSep ", ".data sigs) := by
  rw [show signalsKey = 'S' :: "ignals:".data from rfl]
  rw [split_pipe v,
    findFirst_skip_to_pipe (by decide) (v ++ [' '])
      (show ThinkBaby.includesSub ('S' :: "ignals:".data)
        (v ++ [' ']) = false from hv),
    cons_sep1, findFirst_skip [' '] (by decide)]
  rw [credKey_split, findFirst_skip "Credibility ".data (by decide)]
  rw [scoreKey_cons, findFirst_cons_of_none (by rfl),
    findFirst_skip "core:".data (by decide)]
  rw [cons_sep1, findFirst_skip [' '] (by decide)]
  rw [findFirst_skip (natRepr cred)
    (fun x hx => ThinkBaby.digitB_ne (natRepr_digits cred x hx) (by decide))]
  rw [cons_sep4, findFirst_skip ['%', ' ', '|', ' '] (by decide)]
  rw [findFirst_skip confKey (by decide)]
  rw [cons_sep1, findFirst_skip [' '] (by decide)]
  rw [findFirst_skip (natRepr conf)
    (fun x hx => ThinkBaby.digitB_ne (natRepr_digits conf x hx) (by decide))]
  rw [cons_sep4, findFirst_skip ['%', ' ', '|', ' '] (by decide)]
  rw [strongKey_cons, findFirst_cons_of_none (by rfl),
    findFirst_skip "trongest factor:".data (by decide)]
  rw [cons_sep1, findFirst_skip [' '] (by decide)]
  rw [split_pipe f,
    findFirst_skip_to_pipe (by decide) (f ++ [' '])
      (show ThinkBaby.includesSub ('S' :: "ignals:".data)
        (f ++ [' ']) = false from hf),
    cons_sep1, findFirst_skip [' '] (by decide)]
  exact findFirst_start (List.cons_ne_nil _ _) (signalsAfter_spec hJne hJh hJp)

end TruthMatrix

namespace TruthMatrix

open ThinkBaby (wsB digitB jsTrim joinSep splitChar)
open CredEngine (natRepr)

/-- C7: the explanation string is an invertible pipe-separated contract —
for every explanation assembled by the Explainer in the specified field
order (verdict line, credibility %, confidence %, strongest factor,
signals), `parseExplanation` recovers the verdict line (the text before
the first `|`), both integer percentages, the strongest factor, and the
signal list exactly.  The hypotheses are the format's inherent
conditions: the free-text fields contain no `|` and do not embed the
field labels, they are trimmed, and the signal tokens are comma-, pipe-
and whitespace-free. -/
theorem parseExplanation_inverts_render
    (v f : List Char) (cred conf : Nat) (sigs : List (List Char))
    (hvP : ∀ c ∈ v, notPipeB c = true) (hvt : jsTrim v = v)
    (hvcred : ThinkBaby.includesSub credKey (v ++ [' ']) = false)
    (hvconf : ThinkBaby.includesSub confKey (v ++ [' ']) = false)
    (hvstrong : ThinkBaby.includesSub strongKey (v ++ [' ']) = false)
    (hvsig : ThinkBaby.includesSub signalsKey (v ++ [' ']) = false)
    (hfne : f ≠ []) (hfP : ∀ c ∈ f, notPipeB c = true) (hft : jsTrim f = f)
    (hfsig : ThinkBaby.includesSub signalsKey (f ++ [' ']) = false)
    (hs0 : sigs ≠ []) (hsig : ∀ s ∈ sigs, s ≠ [] ∧ ∀ c ∈ s, sigChar c = true) :
    parseExplanation (CredEngine.renderExplanation v cred conf f sigs) =
      ⟨some cred, some conf, some f, sigs, v⟩ := by
  obtain ⟨s0, rest, rfl⟩ := List.exists_cons_of_ne_nil hs0
  have hvh : ∀ c, v.head? = some c → wsB c = false := by
    intro c hc
    exact ThinkBaby.jsTrim_head? (by rw [hvt]; exact hc)
  have hvl : ∀ c, v.getLast? = some c → wsB c = false := by
    intro c hc
    exact ThinkBaby.jsTrim_getLast? (by rw [hvt]; exact hc)
  have hfh : ∀ c, f.head? = some c → wsB c = false := by
    intro c hc
    exact ThinkBaby.jsTrim_head? (by rw [hft]; exact hc)
  have hfl : ∀ c, f.getLast? = some c → wsB c = false := by
    intro c hc
    exact ThinkBaby.jsTrim_getLast? (by rw [hft]; exact hc)
  have hsne : ∀ s ∈ s0 :: rest, s ≠ [] := fun s hs => (hsig s hs).1
  have hsch : ∀ s ∈ s0 :: rest, ∀ c, s.head? = some c → wsB c = false :=
    fun s hs c hc =>
      (sigChar_spec ((hsig s hs).2 c (mem_of_head? hc))).2.2
  have hscl : ∀ s ∈ s0 :: rest, ∀ c, s.getLast? = some c → wsB c = false :=
    fun s hs c hc =>
      (sigChar_spec ((hsig s hs).2 c (mem_of_getLast? hc))).2.2
  have hJne : joinSep ", ".data (s0 :: rest) ≠ [] :=
    joinComma_ne_nil (by simp) hsne
  have hJh : ∀ c, (joinSep ", ".data (s0 :: rest)).head? = some c →
      wsB c = false := by
    intro c hc
    rw [joinComma_head? (hsne s0 (by simp))] at hc
    exact hsch s0 (by simp) c hc
  have hJl : ∀ c, (joinSep ", ".data (s0 :: rest)).getLast? = some c →
      wsB c = false := by
    intro c hc
    obtain ⟨s, hsmem, heq⟩ := joinComma_getLast? (by simp) hsne
    rw [heq] at hc
    exact hscl s hsmem c hc
  have hJp : ∀ c ∈ joinSep ", ".data (s0 :: rest), notPipeB c = true := by
    intro c hc
    rcases joinComma_mem hc with (rfl | rfl) | ⟨s, hsm, hcs⟩
    · decide
    · decide
    · exact sigChar_notPipe ((hsig s hsm).2 c hcs)
  rw [render_eq]
  unfold parseExplanation
  dsimp only
  rw [findCred_component v cred conf f (s0 :: rest) hvcred,
    findConf_component v cred conf f (s0 :: rest) hvconf,
    findStrong_component v cred conf f (s0 :: rest) hvstrong hfne hfh hfP,
    findSignals_component v cred conf f (s0 :: rest) hvsig hfsig hJne hJh hJp]
  rw [Option.map_some', Option.map_some',
    ThinkBaby.jsTrim_pad hfh hfl,
    ThinkBaby.jsTrim_eq_self hJh hJl]
  dsimp only
  rw [if_neg (by simp [List.isEmpty_iff, hJne])]
  rw [splitChar_joinComma rest s0
    (fun c hc => (sigChar_spec ((hsig s0 (by simp)).2 c hc)).1)
    (fun s hs c hc => (sigChar_spec ((hsig s (by simp [hs])).2 c hc)).1)]
  rw [List.map_cons, List.map_map,
    ThinkBaby.jsTrim_eq_self (hsch s0 (by simp)) (hscl s0 (by simp)),
    map_eq_self_of_mem (fun s hs => by
      simp only [Function.comp_apply]
      rw [jsTrim_cons_space]
      exact ThinkBaby.jsTrim_eq_self
        (hsch s (by simp [hs])) (hscl s (by simp [hs])))]
  rw [List.filter_eq_self.mpr (fun a ha => by
    simpa [List.isEmpty_iff] using hsne a ha)]
  rw [List.takeWhile_append_of_pos hvP,
    List.takeWhile_cons_of_pos (by decide),
    List.takeWhile_cons_of_neg (by decide),
    ThinkBaby.jsTrim_pad hvh hvl]

/-- Witness for C7 at the repository's documented verdict line
`"✅ Claim appears credible"` with two signals. -/
theorem parseExplanation_inverts_render_witness :
    ((∀ c ∈ "✅ Claim appears credible".data, notPipeB c = true) ∧
      jsTrim "✅ Claim appears credible".data = "✅ Claim appears credible".data ∧
      ThinkBaby.includesSub credKey
        ("✅ Claim appears credible".data ++ [' ']) = false ∧
      ThinkBaby.includesSub confKey
        ("✅ Claim appears credible".data ++ [' ']) = false ∧
      ThinkBaby.includesSub strongKey
        ("✅ Claim appears credible".data ++ [' ']) = false ∧
      ThinkBaby.includesSub signalsKey
        ("✅ Claim appears credible".data ++ [' ']) = false ∧
      "unverified_source".data ≠ [] ∧
      (∀ c ∈ "unverified_source".data, notPipeB c = true) ∧
      jsTrim "unverified_source".data = "unverified_source".data ∧
      ThinkBaby.includesSub signalsKey
        ("unverified_source".data ++ [' ']) = false ∧
      ["clickbait_language".data, "urgency_manipulation".data] ≠ [] ∧
      (∀ s ∈ ["clickbait_language".data, "urgency_manipulation".data],
        s ≠ [] ∧ ∀ c ∈ s, sigChar c = true)) ∧
    parseExplanation
        (CredEngine.renderExplanation "✅ Claim appears credible".data 85 70
          "unverified_source".data
          ["clickbait_language".data, "urgency_manipulation".data]) =
      ⟨some 85, some 70, some "unverified_source".data,
        ["clickbait_language".data, "urgency_manipulation".data],
        "✅ Claim appears credible".data⟩ :=
  ⟨⟨by decide, by decide, by decide, by decide, by decide, by decide,
    by decide, by decide, by decide, by decide, by decide, by decide⟩,
    parseExplanation_inverts_render "✅ Claim appears credible".data
      "unverified_source".data 85 70
      ["clickbait_language".data, "urgency_manipulation".data]
      (by decide) (by decide) (by decide) (by decide) (by decide)
      (by decide) (by decide) (by decide) (by decide) (by decide)
      (by decide) (by decide)⟩

end TruthMatrix
